import Mathlib

/-!
Verification of the fiber-tree observation engine of `react-detective`.

The definitions below are a shallow embedding of `src/page-hook.js`
(the identity assigner / tree builder / update classifier / commit
observer / readiness detector) and of the structure-signature helper
`buildStructureSignature` from the panel's graph utilities.

Modelling conventions:
* JavaScript strings are Lean `String`s; object snapshots are association
  lists `List (String × Val)` in key insertion order (JS objects have no
  duplicate keys, `Object.keys` returns insertion order).
* A fiber is modelled with its `child` / `sibling` pointers, exactly the
  two links the traversal in `visit` follows.  The page's fiber structure
  reachable through these links is a tree, so the `visited`-set guard of
  the source (which protects against aliasing) never fires and is elided.
* `Map` objects keyed by strings become functions `String → Nat`
  (get-with-default-0 / set, the only operations used); `Map`s keyed by
  fibers, which are iterated in insertion order, become Lean lists.
-/

set_option maxHeartbeats 1000000

namespace ReactDetective

/-- JavaScript values as distinguished by the strict equality operator
`===`/`!==`.  `ref n` models an object reference (equal only to itself),
`prim s` a primitive value, `undefinedVal` the value `undefined` (also the result
of reading an absent key), and `nan` the value `NaN`, which `===` deems
unequal to everything, itself included. -/
inductive Val where
  | undefinedVal
  | nan
  | prim (s : String)
  | ref (n : Nat)
deriving DecidableEq, Repr

/-- JavaScript strict equality `===` on `Val`. -/
def jsEq : Val → Val → Bool
  | .nan, _ => false
  | _, .nan => false
  | a, b => a == b

/-- A shallow JS object snapshot: keys with values, in insertion order. -/
abbrev Obj := List (String × Val)

/-- `Object.keys`. -/
def objKeys (o : Obj) : List String := o.map Prod.fst

/-- Property read `o[k]`; an absent key reads as `undefined`. -/
def objGet (o : Obj) (k : String) : Val :=
  match o.find? (fun p => p.1 == k) with
  | some p => p.2
  | none => .undefinedVal

/-- One step of JS `Set` insertion (insertion order, no duplicates). -/
def addKey (acc : List String) (k : String) : List String :=
  if k ∈ acc then acc else acc ++ [k]

/-- `new Set([...Object.keys(prev), ...Object.keys(next)])`, as the ordered
list of its elements. -/
def unionKeys (ps ns : List String) : List String :=
  (ps ++ ns).foldl addKey []

/-- `shallowDiff(prev, next)` from `page-hook.js`: if either snapshot is
missing (`!prev || !next`) return `Object.keys(next || {})`; otherwise scan
the union of the key sets and keep the keys whose values differ by `!==`. -/
def shallowDiff (prev next : Option Obj) : List String :=
  match prev, next with
  | some p, some n =>
      (unionKeys (objKeys p) (objKeys n)).filter
        (fun k => !(jsEq (objGet p k) (objGet n k)))
  | none, some n => objKeys n
  | _, none => []

/-- The observable fields of a fiber's `alternate` (the node's counterpart
from the previous commit): its `memoizedProps` and `memoizedState`. -/
structure AltData where
  props : Option Obj
  state : Option Obj
deriving DecidableEq, Repr

/-- The fields of one fiber read by the observer.  `isComp` is the value of
`isReactComponent(fiber)` (the fiber's `type` is a function or a non-null
object) and `name` the value of `getDisplayName(fiber)`; both are functions
of the fiber's `type`, which the observer never inspects otherwise. -/
structure FiberFields where
  isComp : Bool
  name : String
  flags : Nat
  props : Option Obj
  state : Option Obj
  alternate : Option AltData
deriving DecidableEq, Repr

/-- A fiber with its `child` and `sibling` links (`nil` = `null`). -/
inductive Fiber where
  | nil
  | node (f : FiberFields) (child : Fiber) (sibling : Fiber)
deriving DecidableEq, Repr

/-- Limits from `page-hook.js`. -/
def MAX_NODES : Nat := 800
def TIMEOUT_MS : Nat := 3000
def POLL_MS : Nat := 50

/-- One entry of the identity map `idByFiber`: the assigned stable `id`,
the nearest component ancestor's `parentId`, the sibling instance index
`idx` used to build the id, and the fields of the fiber it is keyed by. -/
structure IdEntry where
  id : String
  parentId : Option String
  idx : Nat
  f : FiberFields
deriving DecidableEq, Repr

/-- The mutable state of one `buildIdMap` pass: the identity map in
insertion order, the `counters` map (`get(key) ?? 0` / `set`), and the
assigned-node `count`. -/
structure VisitSt where
  entries : List IdEntry
  counters : String → Nat
  count : Nat

/-- The key of the sibling counter: `` `${parentId}::${name}` ``. -/
def counterKey (parentId name : String) : String :=
  parentId ++ "::" ++ name

/-- The id assigned to a component fiber with component parent id `p`:
`` `${parentComponentId}/${name}[${idx}]` `` with `idx` the current counter
value of the fiber's key (`nextIndex` returns the value before bumping). -/
def childId (st : VisitSt) (p : String) (f : FiberFields) : String :=
  p ++ "/" ++ f.name ++ "[" ++ toString (st.counters (counterKey p f.name)) ++ "]"

/-- The id assigned to a component fiber with no component parent:
`` `ROOT/${name}[0]` ``. -/
def rootId (f : FiberFields) : String :=
  "ROOT/" ++ f.name ++ "[0]"

/-- The body of the `if (isComponent)` block of `visit` for a fiber with a
component parent `p`: record the entry in the map, bump the sibling
counter at the fiber's key (`nextIndex`), and count the node. -/
def childStep (st : VisitSt) (p : String) (f : FiberFields) : VisitSt :=
  { entries := st.entries ++ [⟨childId st p f, some p, st.counters (counterKey p f.name), f⟩]
    counters := fun k =>
      if k = counterKey p f.name then st.counters k + 1 else st.counters k
    count := st.count + 1 }

/-- The body of the `if (isComponent)` block of `visit` for a fiber with no
component parent (`nextIndex` is not consulted; the index is the literal 0
of `ROOT/${name}[0]`). -/
def rootStep (st : VisitSt) (f : FiberFields) : VisitSt :=
  { entries := st.entries ++ [⟨rootId f, none, 0, f⟩]
    counters := st.counters
    count := st.count + 1 }

/-- The DFS `visit(fiber, parentComponentId)` of `buildIdMap`.  `isRoot`
models the `fiber === rootFiber` comparison (true only for the fiber the
traversal started at).  A component-like fiber is assigned an id — with a
sibling index drawn from `counters` when it has a component parent — and
becomes the parent of its children; other fibers are traversed through
transparently.  Once `count` reaches `maxNodes` every visit returns at
once, cutting off the remaining child and sibling chains. -/
def visit (maxNodes : Nat) : Fiber → Bool → Option String → VisitSt → VisitSt
  | .nil, _, _, st => st
  | .node f child sibling, isRoot, parentComponentId, st =>
    if st.count ≥ maxNodes then st
    else if isRoot || f.isComp then
      match parentComponentId with
      | some p =>
          visit maxNodes sibling false parentComponentId
            (visit maxNodes child false (some (childId st p f)) (childStep st p f))
      | none =>
          visit maxNodes sibling false parentComponentId
            (visit maxNodes child false (some (rootId f)) (rootStep st f))
    else
      visit maxNodes sibling false parentComponentId
        (visit maxNodes child false parentComponentId st)

/-- `buildIdMap(rootFiber, maxNodes)`: the identity map, as its entries in
insertion order. -/
def buildIdMap (rootFiber : Fiber) (maxNodes : Nat) : List IdEntry :=
  (visit maxNodes rootFiber true none ⟨[], fun _ => 0, 0⟩).entries

/-- A node of the emitted logical graph. -/
structure GraphNode where
  id : String
  name : String
deriving DecidableEq, Repr

/-- An edge of the emitted logical graph (JS fields `from` / `to`;
`from` is a Lean keyword, hence `fromId` / `toId`). -/
structure GraphEdge where
  fromId : String
  toId : String
deriving DecidableEq, Repr

/-- The logical graph `{nodes, edges}`. -/
structure Graph where
  nodes : List GraphNode
  edges : List GraphEdge
deriving DecidableEq, Repr

/-- `buildFiberGraph(rootFiber, maxNodes)`: one node `{id, name}` per
identity-map entry, and one edge `{from: parentId, to: id}` per entry with
a non-null parent id, both in map insertion order. -/
def buildFiberGraph (rootFiber : Fiber) (maxNodes : Nat) : Graph :=
  let idByFiber := buildIdMap rootFiber maxNodes
  { nodes := idByFiber.map (fun e => { id := e.id, name := e.f.name })
    edges := idByFiber.filterMap (fun e =>
      e.parentId.map (fun p => { fromId := p, toId := e.id })) }

/-- One update record of the classifier. -/
structure UpdateRec where
  id : String
  propsChanged : List String
  stateChanged : List String
  wasted : Bool
deriving DecidableEq, Repr

/-- `buildFiberUpdates(rootFiber, maxNodes)`: for every identity-map entry
whose `flags` are non-zero, the shallow props/state diffs against the
`alternate` (reading `alt?.memoizedProps` / `alt?.memoizedState`), and
`wasted` exactly when both diffs are empty. -/
def buildFiberUpdates (rootFiber : Fiber) (maxNodes : Nat) : List UpdateRec :=
  (buildIdMap rootFiber maxNodes).filterMap (fun e =>
    if e.f.flags ≠ 0 then
      let propsChanged := shallowDiff (e.f.alternate.bind AltData.props) e.f.props
      let stateChanged := shallowDiff (e.f.alternate.bind AltData.state) e.f.state
      some { id := e.id
             propsChanged := propsChanged
             stateChanged := stateChanged
             wasted := propsChanged.length == 0 && stateChanged.length == 0 }
    else none)

/-! ### Structure signature (panel graph utilities) -/

/-- Worker of `stripInstanceIndex`, scanning the character list of an id.
The second argument is the scanning mode: `none` = ordinary scanning;
`some acc` = a `'['` has been read and `acc` holds the digits read since
(most recent first).  This realizes the global regex replacement
`id.replace(/\[\d+]/g, '[*]')`: a maximal non-empty digit run between
`'['` and `']'` is replaced by `'*'`; any other text is copied. -/
def stripAux : List Char → Option (List Char) → List Char
  | [], none => []
  | [], some acc => '[' :: acc.reverse
  | c :: rest, none =>
      if c = '[' then stripAux rest (some [])
      else c :: stripAux rest none
  | c :: rest, some acc =>
      if c.isDigit then stripAux rest (some (c :: acc))
      else if c = ']' && !acc.isEmpty then '[' :: '*' :: ']' :: stripAux rest none
      else if c = '[' then '[' :: acc.reverse ++ stripAux rest (some [])
      else '[' :: acc.reverse ++ c :: stripAux rest none

/-- `stripInstanceIndex(id)`: replace every `[digits]` block by `[*]`. -/
def stripInstanceIndex (s : String) : String := ⟨stripAux s.data none⟩

/-- JS `Array.prototype.sort()` on an array of strings: the sorted
permutation under lexicographic code-unit order. -/
def sortStrings (l : List String) : List String :=
  List.insertionSort (· ≤ ·) l

/-- JS `Array.prototype.join('|')`. -/
def joinBar : List String → String
  | [] => ""
  | [s] => s
  | s :: rest => s ++ "|" ++ joinBar rest

/-- The stripped node-id strings `nodes.map(n => strip(String(n.id)))`. -/
def nodeSigList (g : Graph) : List String :=
  g.nodes.map (fun n => stripInstanceIndex n.id)

/-- The stripped edge strings `` edges.map(e => `${strip(from)}->${strip(to)}`) ``. -/
def edgeSigList (g : Graph) : List String :=
  g.edges.map (fun e => stripInstanceIndex e.fromId ++ "->" ++ stripInstanceIndex e.toId)

/-- `buildStructureSignature(graph)` from the panel's graph utilities:
sorted stripped node ids joined by `|`, then `::`, then sorted stripped
edge strings joined by `|`. -/
def buildStructureSignature (g : Graph) : String :=
  joinBar (sortStrings (nodeSigList g)) ++ "::" ++ joinBar (sortStrings (edgeSigList g))

/-! ### Events, root registry, readiness detector, commit observer -/

/-- The tri-state availability status. -/
inductive Status where
  | NO_HOOK
  | NO_REACT
  | REACT_READY
deriving DecidableEq, Repr

/-- The outbound events of the observer (the `send(type, payload)` calls),
plus `callOriginal`, which records the delegation
`originalCommit.apply(this, arguments)` with the values it was passed. -/
inductive Ev where
  | status (s : Status)
  | fiberGraph (rendererID : Nat) (rootId : Nat) (graph : Graph)
  | fiberUpdate (ids : List String)
  | fiberMeta (commitIntervalMs : Int) (diffs : List UpdateRec)
  | callOriginal (thisVal : Nat) (rendererID : Nat) (rootHandle : Nat)
deriving DecidableEq, Repr

def isStatusEv : Ev → Bool
  | .status _ => true
  | _ => false

def isGraphEv : Ev → Bool
  | .fiberGraph .. => true
  | _ => false

def isUpdateEv : Ev → Bool
  | .fiberUpdate _ => true
  | _ => false

def isMetaEv : Ev → Bool
  | .fiberMeta .. => true
  | _ => false

def isCallEv : Ev → Bool
  | .callOriginal .. => true
  | _ => false

/-- A React `FiberRoot` object: an object identity (`handle`, standing for
the reference used as `WeakMap` key) and its `current` fiber. -/
structure FiberRootObj where
  handle : Nat
  current : Fiber
deriving DecidableEq, Repr

/-- The `rootIds` WeakMap together with `nextRootId` (initially 1). -/
structure RootRegistry where
  rootIds : List (Nat × Nat)
  nextRootId : Nat
deriving DecidableEq, Repr

/-- `getRootId(root)`: look up the root's stable id, assigning
`nextRootId++` on first sight. -/
def getRootId (reg : RootRegistry) (handle : Nat) : Nat × RootRegistry :=
  match reg.rootIds.find? (fun p => p.1 == handle) with
  | some p => (p.2, reg)
  | none => (reg.nextRootId, ⟨reg.rootIds ++ [(handle, reg.nextRootId)], reg.nextRootId + 1⟩)

/-- `emitFiberGraph(rendererID, root)`: build the graph for `root.current`
under `MAX_NODES` and emit it with the renderer and root ids. -/
def emitFiberGraphEv (reg : RootRegistry) (rendererID : Nat) (root : FiberRootObj) :
    RootRegistry × Ev :=
  let graph := buildFiberGraph root.current MAX_NODES
  let r := getRootId reg root.handle
  (r.2, .fiberGraph rendererID r.1 graph)

/-- `emitAllRoots(hook)`: emit a graph for every known root of every
registered renderer (`renderers` pairs a rendererID with its fiber roots). -/
def emitAllRoots (reg : RootRegistry) (renderers : List (Nat × List FiberRootObj)) :
    RootRegistry × List Ev :=
  renderers.foldl
    (fun acc r =>
      r.2.foldl
        (fun acc2 root =>
          let r2 := emitFiberGraphEv acc2.1 r.1 root
          (r2.1, acc2.2 ++ [r2.2]))
        acc)
    (reg, [])

/-- The polling loop of `waitForReactRenderers`, from tick `k` (the tick at
index `k` fires `(k+1) * POLL_MS` milliseconds after start).  Each tick
first checks for renderers (`hasRenderers k`) and reports readiness —
emitting every current root's graph and then `REACT_READY` — and otherwise
stops with `NO_REACT` once the elapsed time exceeds `TIMEOUT_MS`. -/
def pollFrom (hasRenderers : Nat → Bool) (renderers : List (Nat × List FiberRootObj))
    (reg : RootRegistry) (k : Nat) : RootRegistry × List Ev :=
  if hasRenderers k then
    let r := emitAllRoots reg renderers
    (r.1, r.2 ++ [.status .REACT_READY])
  else if (k + 1) * POLL_MS > TIMEOUT_MS then
    (reg, [.status .NO_REACT])
  else
    pollFrom hasRenderers renderers reg (k + 1)
termination_by (TIMEOUT_MS / POLL_MS + 1) - k
decreasing_by
  simp only [TIMEOUT_MS, POLL_MS] at *
  omega

/-- The readiness detector: with no global hook, emit `NO_HOOK` at once and
do not poll; otherwise poll from tick 0. -/
def runDetector (hookPresent : Bool) (hasRenderers : Nat → Bool)
    (renderers : List (Nat × List FiberRootObj)) (reg : RootRegistry) :
    RootRegistry × List Ev :=
  if !hookPresent then (reg, [.status .NO_HOOK])
  else pollFrom hasRenderers renderers reg 0

/-- The state read and written by the patched `onCommitFiberRoot`.
`lastCommitTs` holds the previous commit's `performance.now()`; timestamps
are modelled as integral milliseconds, for which the source's
`Number((now - last).toFixed(2))` is the exact difference. -/
structure HookState where
  reg : RootRegistry
  lastCommitTs : Option Int
deriving DecidableEq, Repr

/-- The patched `hook.onCommitFiberRoot(rendererID, root)`, invoked with
`this = thisVal` at time `now`: compute the commit interval, emit the full
graph, compute the update list, emit the id list if non-empty, emit the
meta batch, and finally delegate to the original handler when one was
installed.  Returns the new state and the events in emission order. -/
def onCommitFiberRoot (st : HookState) (originalPresent : Bool) (thisVal rendererID : Nat)
    (root : FiberRootObj) (now : Int) : HookState × List Ev :=
  let commitIntervalMs : Int :=
    match st.lastCommitTs with
    | none => 0
    | some t => now - t
  let r := emitFiberGraphEv st.reg rendererID root
  let updates := buildFiberUpdates root.current MAX_NODES
  let updEvs := if updates.length ≠ 0 then [Ev.fiberUpdate (updates.map UpdateRec.id)] else []
  let callEvs := if originalPresent then [Ev.callOriginal thisVal rendererID root.handle] else []
  ({ reg := r.1, lastCommitTs := some now },
   r.2 :: (updEvs ++ [Ev.fiberMeta commitIntervalMs updates] ++ callEvs))

/-- The patched commit handler under a failure model for its outbound
`window.postMessage` deliveries (which can throw, e.g. a `DataCloneError`):
`failAt = some i` makes the `i`-th `send` of this invocation throw.  The
handler body contains no `try`/`catch`, so a throwing send aborts the
invocation: the result is `.error tr` where `tr` lists the events that were
already delivered, and nothing after the throw — the original handler
included — runs. -/
def onCommitFiberRootE (failAt : Option Nat) (st : HookState) (originalPresent : Bool)
    (thisVal rendererID : Nat) (root : FiberRootObj) (now : Int) :
    Except (List Ev) (HookState × List Ev) :=
  let commitIntervalMs : Int :=
    match st.lastCommitTs with
    | none => 0
    | some t => now - t
  let r := emitFiberGraphEv st.reg rendererID root
  let st' : HookState := { reg := r.1, lastCommitTs := some now }
  if failAt = some 0 then .error []
  else
    let updates := buildFiberUpdates root.current MAX_NODES
    let callEvs := if originalPresent then [Ev.callOriginal thisVal rendererID root.handle] else []
    if updates.length ≠ 0 then
      if failAt = some 1 then .error [r.2]
      else if failAt = some 2 then .error [r.2, Ev.fiberUpdate (updates.map UpdateRec.id)]
      else .ok (st', r.2 :: Ev.fiberUpdate (updates.map UpdateRec.id) ::
                      Ev.fiberMeta commitIntervalMs updates :: callEvs)
    else
      if failAt = some 1 then .error [r.2]
      else .ok (st', r.2 :: Ev.fiberMeta commitIntervalMs updates :: callEvs)

/-! ### Derived notions used by the theorems -/

/-- The counter key of an identity-map entry (`none` for a root entry,
which draws no sibling index). -/
def entryKey (e : IdEntry) : Option String :=
  e.parentId.map (fun p => counterKey p e.f.name)

/-- `p` is either `null` or the id of some already-assigned entry. -/
def POk (p : Option String) (es : List IdEntry) : Prop :=
  ∀ q : String, p = some q → ∃ e ∈ es, e.id = q

/-- Every entry's parent id is `null` or the id of some entry of the map. -/
def Closed (es : List IdEntry) : Prop :=
  ∀ e ∈ es, POk e.parentId es

/-- The counters map agrees with the entries: the value stored under every
key is the number of assigned entries carrying that counter key. -/
def CtrInv (st : VisitSt) : Prop :=
  ∀ k : String,
    st.counters k = (st.entries.filter (fun e => entryKey e == some k)).length

/-- Every non-root entry's sibling index equals the number of previously
assigned entries sharing its counter key. -/
def IdxOk (es : List IdEntry) : Prop :=
  ∀ (i : Nat) (h : i < es.length) (q : String), es[i].parentId = some q →
    es[i].idx = ((es.take i).filter (fun e => entryKey e == entryKey es[i])).length

/-- A character the signature format uses as a separator. -/
def isSepChar (c : Char) : Bool :=
  c == '|' || c == ':' || c == '-' || c == '>'

/-- An id that is non-empty and free of separator characters. -/
def CleanId (s : String) : Prop :=
  s ≠ "" ∧ ∀ c ∈ s.data, isSepChar c = false

/-- A graph whose node ids and edge endpoints are all clean. -/
def CleanGraph (g : Graph) : Prop :=
  (∀ n ∈ g.nodes, CleanId n.id) ∧ ∀ e ∈ g.edges, CleanId e.fromId ∧ CleanId e.toId

/-! ### Concrete inputs used by witnesses and counterexamples -/

/-- Fiber fields with the given component-likeness and name and no commit
data (flags 0, no snapshots, no alternate). -/
def mkF (isComp : Bool) (name : String) : FiberFields :=
  { isComp := isComp, name := name, flags := 0, props := none, state := none, alternate := none }

/-- The end-to-end scenario tree: a root `App` whose children (behind a
transparent host `div`) are `Navbar` and `Page`, where `Page` has two
`Item` children behind a transparent host `ul`. -/
def c1Tree : Fiber :=
  .node (mkF true "App")
    (.node (mkF false "div")
      (.node (mkF true "Navbar") .nil
        (.node (mkF true "Page")
          (.node (mkF false "ul")
            (.node (mkF true "Item") .nil
              (.node (mkF true "Item") .nil .nil))
            .nil)
          .nil))
      .nil)
    .nil

/-- A tree whose display names make two distinct `(parent id, name)` pairs
collide on one counter key: under root `App`, a child `P` (with a child
named `Q[0]::X`) and a child `P[0]::Q` (with a child named `X`).  Both
grandchildren produce the counter key `ROOT/App[0]/P[0]::Q[0]::X`. -/
def c2CexTree : Fiber :=
  .node (mkF true "App")
    (.node (mkF true "P")
      (.node (mkF true "Q[0]::X") .nil .nil)
      (.node (mkF true "P[0]::Q")
        (.node (mkF true "X") .nil .nil)
        .nil))
    .nil

/-- A one-key props snapshot whose value is an object reference. -/
def c5Props : Obj := [("value", .ref 7)]

/-- A dirty fiber whose props and state snapshots are unchanged from its
alternate: same props reference per key, state absent on both sides. -/
def c5Tree : Fiber :=
  .node { isComp := true, name := "Memo", flags := 1, props := some c5Props,
          state := none, alternate := some { props := some c5Props, state := none } }
    .nil .nil

/-- A dirty fiber with no alternate and two props keys: the
first-commit-changed-everything scenario. -/
def c3Tree : Fiber :=
  .node { isComp := true, name := "Fresh", flags := 1,
          props := some [("a", .prim "1"), ("b", .ref 0)],
          state := none, alternate := none }
    .nil .nil

/-- The update record produced for the (dirty, alternate-free) root of
`c3Tree`. -/
def c3Upd : UpdateRec :=
  { id := "ROOT/Fresh[0]", propsChanged := ["a", "b"], stateChanged := [], wasted := false }

/-- The update record produced for the (dirty, unchanged) root of `c5Tree`. -/
def c5Upd : UpdateRec :=
  { id := "ROOT/Memo[0]", propsChanged := [], stateChanged := [], wasted := true }

/-- A root object over `c3Tree` (which produces a non-empty update list). -/
def c8Root : FiberRootObj := { handle := 5, current := c3Tree }

/-- A root object over `c1Tree` (no dirty fibers, empty update list). -/
def c8RootQuiet : FiberRootObj := { handle := 6, current := c1Tree }

/-- Single-node graphs that differ only in one instance index — and hence
also differ in node membership. -/
def c9G0 : Graph := { nodes := [{ id := "A[0]", name := "A" }], edges := [] }

def c9G1 : Graph := { nodes := [{ id := "A[1]", name := "A" }], edges := [] }

/-! ## Traversal invariants -/

theorem POk_mono {p : Option String} {es t : List IdEntry} (h : POk p es) :
    POk p (es ++ t) := by
  intro q hq
  obtain ⟨e, he, hid⟩ := h q hq
  exact ⟨e, List.mem_append_left _ he, hid⟩

theorem closed_append {es : List IdEntry} {e : IdEntry} (h : Closed es)
    (he : POk e.parentId es) : Closed (es ++ [e]) := by
  intro x hx
  rcases List.mem_append.mp hx with hx | hx
  · exact POk_mono (h x hx)
  · rw [List.mem_singleton.mp hx]
    exact POk_mono he

theorem idxOk_append {es : List IdEntry} {e : IdEntry} (h : IdxOk es)
    (hnew : ∀ q : String, e.parentId = some q →
      e.idx = (es.filter (fun x => entryKey x == entryKey e)).length) :
    IdxOk (es ++ [e]) := by
  intro i hi q hq
  rcases Nat.lt_or_ge i es.length with hlt | hge
  · have hgetl : (es ++ [e])[i] = es[i] := by
      rw [List.getElem_append_left]
    rw [hgetl] at hq ⊢
    rw [List.take_append_of_le_length (Nat.le_of_lt hlt)]
    exact h i hlt q hq
  · have hieq : i = es.length := by
      have hlen : (es ++ [e]).length = es.length + 1 := by simp
      omega
    subst hieq
    have hgete : (es ++ [e])[es.length] = e := by simp
    rw [hgete] at hq ⊢
    rw [List.take_append_of_le_length (Nat.le_refl _), List.take_length]
    exact hnew q hq

theorem ctrInv_childStep {st : VisitSt} {q : String} {f : FiberFields} (h : CtrInv st) :
    CtrInv (childStep st q f) := by
  intro k
  simp only [childStep, List.filter_append, List.length_append]
  by_cases hk : k = counterKey q f.name
  · subst hk
    have hone : (List.filter (fun e => entryKey e == some (counterKey q f.name))
        [⟨childId st q f, some q, st.counters (counterKey q f.name), f⟩]).length = 1 := by
      simp [entryKey]
    rw [hone, if_pos rfl, h]
  · have hk' : counterKey q f.name ≠ k := fun hcontra => hk hcontra.symm
    have hzero : (List.filter (fun e => entryKey e == some k)
        [⟨childId st q f, some q, st.counters (counterKey q f.name), f⟩]).length = 0 := by
      simp [entryKey, hk']
    rw [hzero, if_neg hk, h]
    omega

theorem ctrInv_rootStep {st : VisitSt} {f : FiberFields} (h : CtrInv st) :
    CtrInv (rootStep st f) := by
  intro k
  simp only [rootStep, List.filter_append, List.length_append]
  have hzero : (List.filter (fun e => entryKey e == some k)
      [⟨rootId f, none, 0, f⟩]).length = 0 := by
    simp [entryKey]
  rw [hzero, h]
  omega

/-- All invariant facts for the assignment step of a component fiber with a
component parent. -/
theorem childStep_facts (st : VisitSt) (q : String) (f : FiberFields)
    (h1 : st.count = st.entries.length) (h3 : CtrInv st) (h4 : IdxOk st.entries)
    (h5 : Closed st.entries) (hq : ∃ e ∈ st.entries, e.id = q) :
    (childStep st q f).count = (childStep st q f).entries.length ∧
    CtrInv (childStep st q f) ∧
    IdxOk (childStep st q f).entries ∧
    Closed (childStep st q f).entries ∧
    POk (some (childId st q f)) (childStep st q f).entries ∧
    (childStep st q f).count = st.count + 1 ∧
    (childStep st q f).entries = st.entries ++
      [⟨childId st q f, some q, st.counters (counterKey q f.name), f⟩] := by
  refine ⟨?_, ctrInv_childStep h3, ?_, ?_, ?_, rfl, rfl⟩
  · simp [childStep, h1]
  · refine idxOk_append h4 ?_
    intro x _
    exact h3 (counterKey q f.name)
  · refine closed_append h5 ?_
    intro x hx
    obtain ⟨w, hw, hwid⟩ := hq
    exact ⟨w, hw, hwid.trans (Option.some.inj hx)⟩
  · intro x hx
    exact ⟨⟨childId st q f, some q, st.counters (counterKey q f.name), f⟩,
           List.mem_append_right _ (List.mem_singleton_self _), Option.some.inj hx⟩

/-- All invariant facts for the assignment step of a component fiber with
no component parent. -/
theorem rootStep_facts (st : VisitSt) (f : FiberFields)
    (h1 : st.count = st.entries.length) (h3 : CtrInv st) (h4 : IdxOk st.entries)
    (h5 : Closed st.entries) :
    (rootStep st f).count = (rootStep st f).entries.length ∧
    CtrInv (rootStep st f) ∧
    IdxOk (rootStep st f).entries ∧
    Closed (rootStep st f).entries ∧
    POk (some (rootId f)) (rootStep st f).entries ∧
    (rootStep st f).count = st.count + 1 ∧
    (rootStep st f).entries = st.entries ++ [⟨rootId f, none, 0, f⟩] := by
  refine ⟨?_, ctrInv_rootStep h3, ?_, ?_, ?_, rfl, rfl⟩
  · simp [rootStep, h1]
  · refine idxOk_append h4 ?_
    intro x hx
    exact Option.noConfusion hx
  · refine closed_append h5 ?_
    intro x hx
    exact Option.noConfusion hx
  · intro x hx
    exact ⟨⟨rootId f, none, 0, f⟩,
           List.mem_append_right _ (List.mem_singleton_self _), Option.some.inj hx⟩

/-- The master invariant of one `visit` call: entries only grow; `count`
tracks the number of entries and never exceeds the budget; the counters
map counts assigned entries per key; recorded sibling indices count the
previously assigned entries with the same key; and every entry's parent id
is the id of some entry of the map. -/
theorem visit_master (mx : Nat) (fb : Fiber) :
    ∀ (r : Bool) (p : Option String) (st : VisitSt),
      st.count = st.entries.length → st.count ≤ mx → CtrInv st → IdxOk st.entries →
      Closed st.entries → POk p st.entries →
      (∃ t, (visit mx fb r p st).entries = st.entries ++ t) ∧
      (visit mx fb r p st).count = (visit mx fb r p st).entries.length ∧
      (visit mx fb r p st).count ≤ mx ∧
      CtrInv (visit mx fb r p st) ∧ IdxOk (visit mx fb r p st).entries ∧
      Closed (visit mx fb r p st).entries := by
  induction fb with
  | nil =>
      intro r p st h1 h2 h3 h4 h5 _
      exact ⟨⟨[], by simp [visit]⟩, by simpa [visit] using h1, by simpa [visit] using h2,
             by simpa [visit] using h3, by simpa [visit] using h4, by simpa [visit] using h5⟩
  | node f child sibling ihc ihs =>
      intro r p st h1 h2 h3 h4 h5 h6
      by_cases hguard : st.count ≥ mx
      · cases p with
        | none =>
            rw [visit, if_pos hguard]
            exact ⟨⟨[], by simp⟩, h1, h2, h3, h4, h5⟩
        | some q =>
            rw [visit, if_pos hguard]
            exact ⟨⟨[], by simp⟩, h1, h2, h3, h4, h5⟩
      · have hcnt : st.count < mx := Nat.lt_of_not_ge hguard
        by_cases hcomp : (r || f.isComp) = true
        · cases p with
          | some q =>
              rw [visit, if_neg hguard, if_pos hcomp]
              obtain ⟨s1, s2, s3, s4, s5, s6, s7⟩ :=
                childStep_facts st q f h1 h3 h4 h5 (h6 q rfl)
              have hle' : (childStep st q f).count ≤ mx := by omega
              obtain ⟨hg1, hc1, hle1, hctr1, hidx1, hcl1⟩ :=
                ihc false (some (childId st q f)) (childStep st q f) s1 hle' s2 s3 s4 s5
              have hpokq : POk (some q)
                  (visit mx child false (some (childId st q f)) (childStep st q f)).entries := by
                obtain ⟨t1, ht1⟩ := hg1
                rw [ht1, s7]
                exact POk_mono (POk_mono h6)
              obtain ⟨hg2, hc2, hle2, hctr2, hidx2, hcl2⟩ :=
                ihs false (some q) _ hc1 hle1 hctr1 hidx1 hcl1 hpokq
              refine ⟨?_, hc2, hle2, hctr2, hidx2, hcl2⟩
              obtain ⟨t1, ht1⟩ := hg1
              obtain ⟨t2, ht2⟩ := hg2
              refine ⟨[⟨childId st q f, some q, st.counters (counterKey q f.name), f⟩] ++ t1 ++ t2, ?_⟩
              rw [ht2, ht1, s7]
              simp
          | none =>
              rw [visit, if_neg hguard, if_pos hcomp]
              obtain ⟨s1, s2, s3, s4, s5, s6, s7⟩ := rootStep_facts st f h1 h3 h4 h5
              have hle' : (rootStep st f).count ≤ mx := by omega
              obtain ⟨hg1, hc1, hle1, hctr1, hidx1, hcl1⟩ :=
                ihc false (some (rootId f)) (rootStep st f) s1 hle' s2 s3 s4 s5
              have hpokn : POk none
                  (visit mx child false (some (rootId f)) (rootStep st f)).entries :=
                fun x hx => Option.noConfusion hx
              obtain ⟨hg2, hc2, hle2, hctr2, hidx2, hcl2⟩ :=
                ihs false none _ hc1 hle1 hctr1 hidx1 hcl1 hpokn
              refine ⟨?_, hc2, hle2, hctr2, hidx2, hcl2⟩
              obtain ⟨t1, ht1⟩ := hg1
              obtain ⟨t2, ht2⟩ := hg2
              refine ⟨[⟨rootId f, none, 0, f⟩] ++ t1 ++ t2, ?_⟩
              rw [ht2, ht1, s7]
              simp
        · cases p with
          | some q =>
              rw [visit, if_neg hguard, if_neg hcomp]
              obtain ⟨hg1, hc1, hle1, hctr1, hidx1, hcl1⟩ :=
                ihc false (some q) st h1 h2 h3 h4 h5 h6
              have hpokp : POk (some q) (visit mx child false (some q) st).entries := by
                obtain ⟨t1, ht1⟩ := hg1
                rw [ht1]
                exact POk_mono h6
              obtain ⟨hg2, hc2, hle2, hctr2, hidx2, hcl2⟩ :=
                ihs false (some q) _ hc1 hle1 hctr1 hidx1 hcl1 hpokp
              refine ⟨?_, hc2, hle2, hctr2, hidx2, hcl2⟩
              obtain ⟨t1, ht1⟩ := hg1
              obtain ⟨t2, ht2⟩ := hg2
              exact ⟨t1 ++ t2, by rw [ht2, ht1, List.append_assoc]⟩
          | none =>
              rw [visit, if_neg hguard, if_neg hcomp]
              obtain ⟨hg1, hc1, hle1, hctr1, hidx1, hcl1⟩ :=
                ihc false none st h1 h2 h3 h4 h5 h6
              have hpokp : POk none (visit mx child false none st).entries :=
                fun x hx => Option.noConfusion hx
              obtain ⟨hg2, hc2, hle2, hctr2, hidx2, hcl2⟩ :=
                ihs false none _ hc1 hle1 hctr1 hidx1 hcl1 hpokp
              refine ⟨?_, hc2, hle2, hctr2, hidx2, hcl2⟩
              obtain ⟨t1, ht1⟩ := hg1
              obtain ⟨t2, ht2⟩ := hg2
              exact ⟨t1 ++ t2, by rw [ht2, ht1, List.append_assoc]⟩

/-- The map produced by `buildIdMap` satisfies the traversal invariants. -/
theorem buildIdMap_master (rootFiber : Fiber) (mx : Nat) :
    (buildIdMap rootFiber mx).length ≤ mx ∧
    IdxOk (buildIdMap rootFiber mx) ∧ Closed (buildIdMap rootFiber mx) := by
  have h := visit_master mx rootFiber true none ⟨[], fun _ => 0, 0⟩
    rfl (Nat.zero_le _) (fun _ => rfl) (fun i hi => absurd hi (by simp))
    (fun e he => absurd he (List.not_mem_nil e)) (fun q hq => Option.noConfusion hq)
  obtain ⟨_, hc, hle, _, hidx, hcl⟩ := h
  refine ⟨?_, hidx, hcl⟩
  unfold buildIdMap
  omega

theorem mem_addKey (acc : List String) (x k : String) :
    k ∈ addKey acc x ↔ k ∈ acc ∨ k = x := by
  unfold addKey
  by_cases hx : x ∈ acc
  · rw [if_pos hx]
    constructor
    · exact Or.inl
    · rintro (h | rfl)
      · exact h
      · exact hx
  · rw [if_neg hx]
    simp

theorem mem_unionKeys (ps ns : List String) (k : String) :
    k ∈ unionKeys ps ns ↔ k ∈ ps ∨ k ∈ ns := by
  have main : ∀ (l acc : List String), k ∈ l.foldl addKey acc ↔ k ∈ acc ∨ k ∈ l := by
    intro l
    induction l with
    | nil => intro acc; simp
    | cons x xs ih =>
        intro acc
        rw [List.foldl_cons, ih, mem_addKey]
        simp only [List.mem_cons]
        tauto
  unfold unionKeys
  rw [main]
  simp

/-! ## Claim theorems -/

/-- **C1**: on a root `App` whose children (through transparent
non-component nodes) are `Navbar` and `Page`, with `Page` having two
`Item` children, `buildIdMap`/`buildFiberGraph` produce exactly the stable
ids `ROOT/App[0]`, `ROOT/App[0]/Navbar[0]`, `ROOT/App[0]/Page[0]`,
`ROOT/App[0]/Page[0]/Item[0]`, `ROOT/App[0]/Page[0]/Item[1]` and exactly
the 4 edges linking each non-root node to its immediate parent id. -/
theorem c1_end_to_end_identity :
    buildFiberGraph c1Tree MAX_NODES =
      { nodes := [⟨"ROOT/App[0]", "App"⟩,
                  ⟨"ROOT/App[0]/Navbar[0]", "Navbar"⟩,
                  ⟨"ROOT/App[0]/Page[0]", "Page"⟩,
                  ⟨"ROOT/App[0]/Page[0]/Item[0]", "Item"⟩,
                  ⟨"ROOT/App[0]/Page[0]/Item[1]", "Item"⟩]
        edges := [⟨"ROOT/App[0]", "ROOT/App[0]/Navbar[0]"⟩,
                  ⟨"ROOT/App[0]", "ROOT/App[0]/Page[0]"⟩,
                  ⟨"ROOT/App[0]/Page[0]", "ROOT/App[0]/Page[0]/Item[0]"⟩,
                  ⟨"ROOT/App[0]/Page[0]", "ROOT/App[0]/Page[0]/Item[1]"⟩] } := by
  rfl

/-- **C2** counterexample: sibling counters are keyed by the string
`` `${parentId}::${name}` ``, so distinct `(parent id, name)` pairs can
share one counter when names contain `::`.  In `c2CexTree` the node named
`X` under parent `ROOT/App[0]/P[0]::Q[0]` has **zero** previously assigned
siblings with its exact `(parent id, name)` pair, yet receives index 1
(its key collides with the earlier `Q[0]::X` node under
`ROOT/App[0]/P[0]`), refuting the claimed index-assignment rule. -/
theorem c2_counterexample :
    ((buildIdMap c2CexTree MAX_NODES).map fun e => (e.parentId, e.f.name, e.idx)) =
      [(none, "App", 0),
       (some "ROOT/App[0]", "P", 0),
       (some "ROOT/App[0]/P[0]", "Q[0]::X", 0),
       (some "ROOT/App[0]", "P[0]::Q", 0),
       (some "ROOT/App[0]/P[0]::Q[0]", "X", 1)] ∧
    ((buildIdMap c2CexTree MAX_NODES).take 4).filter
        (fun e => e.parentId == some "ROOT/App[0]/P[0]::Q[0]" && e.f.name == "X") = [] :=
  ⟨by rfl, by rfl⟩

/-- **C2** (amended): every non-root assigned node's index equals the
number of previously assigned nodes in the same pass whose concatenated
counter key `` `${parentId}::${name}` `` equals this node's key.  (This
coincides with the count of previously assigned `(parent id, name)`
siblings whenever no two pairs collide on the key string — e.g. whenever
display names contain no `:` — but not in general, as names containing
`::` can make distinct pairs share one counter.) -/
theorem c2_sibling_index (rootFiber : Fiber) (B : Nat) (i : Nat)
    (hi : i < (buildIdMap rootFiber B).length) (q : String)
    (hq : (buildIdMap rootFiber B)[i].parentId = some q) :
    (buildIdMap rootFiber B)[i].idx =
      (((buildIdMap rootFiber B).take i).filter
        (fun e => entryKey e == entryKey (buildIdMap rootFiber B)[i])).length :=
  (buildIdMap_master rootFiber B).2.1 i hi q hq

/-- Witness for `c2_sibling_index` at the colliding node of `c2CexTree`. -/
theorem c2_sibling_index_witness :
    ((buildIdMap c2CexTree MAX_NODES).get ⟨4, by decide⟩).idx =
      (((buildIdMap c2CexTree MAX_NODES).take 4).filter
        (fun e => entryKey e ==
          entryKey ((buildIdMap c2CexTree MAX_NODES).get ⟨4, by decide⟩))).length :=
  c2_sibling_index c2CexTree MAX_NODES 4 (by decide) "ROOT/App[0]/P[0]::Q[0]" (by decide)

/-- **C4**: for every input fiber tree and every budget `B`, the node list
produced by `buildFiberGraph` has length at most `B`. -/
theorem c4_budget_respected (rootFiber : Fiber) (B : Nat) :
    (buildFiberGraph rootFiber B).nodes.length ≤ B := by
  have h := (buildIdMap_master rootFiber B).1
  simpa [buildFiberGraph] using h

/-- **C10**: in every graph returned by `buildFiberGraph`, each edge's
`from` and `to` fields are ids of nodes present in the returned node list,
also under budget truncation (a component's id is assigned before its
descendants are visited, and roots receive no inbound edge). -/
theorem c10_edge_endpoints_closed (rootFiber : Fiber) (B : Nat) (e : GraphEdge)
    (he : e ∈ (buildFiberGraph rootFiber B).edges) :
    (∃ n ∈ (buildFiberGraph rootFiber B).nodes, n.id = e.fromId) ∧
    (∃ n ∈ (buildFiberGraph rootFiber B).nodes, n.id = e.toId) := by
  have hcl := (buildIdMap_master rootFiber B).2.2
  simp only [buildFiberGraph] at he ⊢
  rcases List.mem_filterMap.mp he with ⟨en, hen, hmap⟩
  obtain ⟨pa, hpa, hfe⟩ := Option.map_eq_some'.mp hmap
  subst hfe
  constructor
  · obtain ⟨w, hw, hwid⟩ := hcl en hen pa hpa
    exact ⟨⟨w.id, w.f.name⟩, List.mem_map_of_mem _ hw, hwid⟩
  · exact ⟨⟨en.id, en.f.name⟩, List.mem_map_of_mem _ hen, rfl⟩

/-- Witness for `c10_edge_endpoints_closed` at the first edge of the
end-to-end tree. -/
theorem c10_witness :
    (∃ n ∈ (buildFiberGraph c1Tree MAX_NODES).nodes, n.id = ("ROOT/App[0]" : String)) ∧
    (∃ n ∈ (buildFiberGraph c1Tree MAX_NODES).nodes,
      n.id = ("ROOT/App[0]/Navbar[0]" : String)) :=
  c10_edge_endpoints_closed c1Tree MAX_NODES ⟨"ROOT/App[0]", "ROOT/App[0]/Navbar[0]"⟩
    (by decide)

/-- **C3**: the shallow diff returns, when both snapshots exist, exactly
the keys present in either snapshot whose values differ under `!==`; with
no previous snapshot it returns every key of the current snapshot; with no
current snapshot it returns the empty key list; and every update record's
`propsChanged`/`stateChanged` are this procedure applied to the
props/state snapshots of the dirty node and its alternate. -/
theorem c3_shallow_diff_semantics (p n : Obj) (prev : Option Obj) (k : String)
    (rootFiber : Fiber) (B : Nat) (u : UpdateRec)
    (hu : u ∈ buildFiberUpdates rootFiber B) :
    shallowDiff none (some n) = objKeys n ∧
    shallowDiff prev none = [] ∧
    (k ∈ shallowDiff (some p) (some n) ↔
      ((k ∈ objKeys p ∨ k ∈ objKeys n) ∧ jsEq (objGet p k) (objGet n k) = false)) ∧
    (∃ e ∈ buildIdMap rootFiber B, e.f.flags ≠ 0 ∧ u.id = e.id ∧
      u.propsChanged = shallowDiff (e.f.alternate.bind AltData.props) e.f.props ∧
      u.stateChanged = shallowDiff (e.f.alternate.bind AltData.state) e.f.state) := by
  refine ⟨rfl, ?_, ?_, ?_⟩
  · cases prev <;> rfl
  · simp only [shallowDiff]
    constructor
    · intro hmem
      obtain ⟨hin, hpred⟩ := List.mem_filter.mp hmem
      refine ⟨(mem_unionKeys _ _ _).mp hin, ?_⟩
      simpa using hpred
    · rintro ⟨hin, hne⟩
      refine List.mem_filter.mpr ⟨(mem_unionKeys _ _ _).mpr hin, ?_⟩
      simp [hne]
  · rcases List.mem_filterMap.mp hu with ⟨e, he, hfe⟩
    by_cases hf : e.f.flags ≠ 0
    · rw [if_pos hf] at hfe
      obtain rfl := Option.some.inj hfe
      exact ⟨e, he, hf, rfl, rfl, rfl⟩
    · rw [if_neg hf] at hfe
      exact Option.noConfusion hfe

/-- Witness for `c3_shallow_diff_semantics`: the dirty, alternate-free root
of `c3Tree` reports every key of its current props as changed. -/
theorem c3_witness :
    c3Upd ∈ buildFiberUpdates c3Tree MAX_NODES ∧
    (∃ e ∈ buildIdMap c3Tree MAX_NODES, e.f.flags ≠ 0 ∧ c3Upd.id = e.id ∧
      c3Upd.propsChanged = shallowDiff (e.f.alternate.bind AltData.props) e.f.props ∧
      c3Upd.stateChanged = shallowDiff (e.f.alternate.bind AltData.state) e.f.state) :=
  ⟨by decide,
   (c3_shallow_diff_semantics [] [] none "a" c3Tree MAX_NODES c3Upd (by decide)).2.2.2⟩

/-- **C5**: for every update record, `wasted` holds exactly when both
change lists are empty. -/
theorem c5_wasted_iff (rootFiber : Fiber) (B : Nat) (u : UpdateRec)
    (hu : u ∈ buildFiberUpdates rootFiber B) :
    u.wasted = true ↔ (u.propsChanged = [] ∧ u.stateChanged = []) := by
  rcases List.mem_filterMap.mp hu with ⟨e, he, hfe⟩
  by_cases hf : e.f.flags ≠ 0
  · rw [if_pos hf] at hfe
    obtain rfl := Option.some.inj hfe
    simp [Bool.and_eq_true, beq_iff_eq, List.length_eq_zero]
  · rw [if_neg hf] at hfe
    exact Option.noConfusion hfe

/-- Witness for `c5_wasted_iff`: the dirty root of `c5Tree`, whose props
and state are unchanged from its alternate, is reported with `wasted=true`
and both change lists empty. -/
theorem c5_witness :
    c5Upd ∈ buildFiberUpdates c5Tree MAX_NODES ∧
    (c5Upd.wasted = true ↔ (c5Upd.propsChanged = [] ∧ c5Upd.stateChanged = [])) ∧
    c5Upd.wasted = true ∧ c5Upd.propsChanged = [] ∧ c5Upd.stateChanged = [] :=
  ⟨by decide, c5_wasted_iff c5Tree MAX_NODES c5Upd (by decide), by decide, rfl, rfl⟩

/-! ## Structure-signature lemmas -/

theorem str_data_append (a b : String) : (a ++ b).data = a.data ++ b.data := rfl

theorem str_data_inj {a b : String} (h : a.data = b.data) : a = b := by
  cases a
  cases b
  exact congrArg String.mk h

/-- Every character emitted by `stripAux` satisfies `P` provided the input
characters, the pending digits and the three characters `[`, `*`, `]` do. -/
theorem stripAux_pred (P : Char → Prop) (hbr : P '[') (hst : P '*') (hcl : P ']') :
    ∀ (l : List Char) (m : Option (List Char)),
      (∀ c ∈ l, P c) → (∀ a, m = some a → ∀ c ∈ a, P c) →
      ∀ c ∈ stripAux l m, P c := by
  intro l
  induction l with
  | nil =>
      intro m hl hm c hc
      cases m with
      | none => simp [stripAux] at hc
      | some acc =>
          simp only [stripAux] at hc
          rcases List.mem_cons.mp hc with rfl | hc
          · exact hbr
          · exact hm acc rfl c (List.mem_reverse.mp hc)
  | cons x rest ih =>
      intro m hl hm c hc
      have hl' : ∀ c ∈ rest, P c := fun c hc' => hl c (List.mem_cons_of_mem _ hc')
      have hx : P x := hl x (List.mem_cons_self _ _)
      have hmnone : ∀ a, (none : Option (List Char)) = some a → ∀ c ∈ a, P c :=
        fun a ha => Option.noConfusion ha
      have hmnil : ∀ a, (some ([] : List Char)) = some a → ∀ c ∈ a, P c := by
        intro a ha c hc'
        cases ha
        simp at hc'
      cases m with
      | none =>
          simp only [stripAux] at hc
          split at hc
          · exact ih (some []) hl' hmnil c hc
          · rcases List.mem_cons.mp hc with rfl | hc
            · exact hx
            · exact ih none hl' hmnone c hc
      | some acc =>
          have hmacc : ∀ c ∈ acc, P c := hm acc rfl
          have hmcons : ∀ a, some (x :: acc) = some a → ∀ c ∈ a, P c := by
            intro a ha c hc'
            cases ha
            rcases List.mem_cons.mp hc' with rfl | hc'
            · exact hx
            · exact hmacc c hc'
          simp only [stripAux] at hc
          split at hc
          · exact ih (some (x :: acc)) hl' hmcons c hc
          · split at hc
            · rcases List.mem_cons.mp hc with rfl | hc
              · exact hbr
              rcases List.mem_cons.mp hc with rfl | hc
              · exact hst
              rcases List.mem_cons.mp hc with rfl | hc
              · exact hcl
              · exact ih none hl' hmnone c hc
            · split at hc
              · rcases List.mem_cons.mp hc with rfl | hc
                · exact hbr
                rcases List.mem_append.mp hc with hc | hc
                · exact hmacc c (List.mem_reverse.mp hc)
                · exact ih (some []) hl' hmnil c hc
              · rcases List.mem_cons.mp hc with rfl | hc
                · exact hbr
                rcases List.mem_append.mp hc with hc | hc
                · exact hmacc c (List.mem_reverse.mp hc)
                · rcases List.mem_cons.mp hc with rfl | hc
                  · exact hx
                  · exact ih none hl' hmnone c hc

/-- `stripAux` never returns the empty list unless fed an empty input in
ordinary mode. -/
theorem stripAux_ne_nil :
    ∀ (l : List Char) (m : Option (List Char)), (l ≠ [] ∨ m.isSome = true) → stripAux l m ≠ [] := by
  intro l
  induction l with
  | nil =>
      intro m hm
      cases m with
      | none => rcases hm with h | h
                · exact absurd rfl h
                · simp at h
      | some acc => simp [stripAux]
  | cons x rest ih =>
      intro m _
      cases m with
      | none =>
          simp only [stripAux]
          split
          · exact ih (some []) (Or.inr rfl)
          · simp
      | some acc =>
          simp only [stripAux]
          split
          · exact ih (some (x :: acc)) (Or.inr rfl)
          · split
            · simp
            · split
              · simp
              · simp

theorem strip_ne_empty {s : String} (h : s ≠ "") : stripInstanceIndex s ≠ "" := by
  intro hcontra
  have hd : s.data ≠ [] := by
    intro hnil
    exact h (str_data_inj (by rw [hnil]))
  have : stripAux s.data none = [] := congrArg String.data hcontra
  exact stripAux_ne_nil s.data none (Or.inl hd) this

theorem strip_sepFree {s : String} (h : ∀ c ∈ s.data, isSepChar c = false) :
    ∀ c ∈ (stripInstanceIndex s).data, isSepChar c = false := by
  intro c hc
  refine stripAux_pred (fun c => isSepChar c = false) (by decide) (by decide) (by decide)
    s.data none h (fun a ha => Option.noConfusion ha) c hc

theorem joinBar_data_mem :
    ∀ (l : List String) (c : Char), c ∈ (joinBar l).data → c = '|' ∨ ∃ s ∈ l, c ∈ s.data := by
  intro l
  induction l with
  | nil => intro c hc; simp [joinBar] at hc
  | cons s rest ih =>
      cases rest with
      | nil =>
          intro c hc
          exact Or.inr ⟨s, List.mem_singleton_self _, hc⟩
      | cons t ts =>
          intro c hc
          have hdata : (joinBar (s :: t :: ts)).data =
              s.data ++ '|' :: (joinBar (t :: ts)).data := by
            show (s ++ "|" ++ joinBar (t :: ts)).data = _
            rw [str_data_append, str_data_append]
            simp
          rw [hdata] at hc
          rcases List.mem_append.mp hc with hc | hc
          · exact Or.inr ⟨s, List.mem_cons_self _ _, hc⟩
          · rcases List.mem_cons.mp hc with rfl | hc
            · exact Or.inl rfl
            · rcases ih c hc with h | ⟨w, hw, hcw⟩
              · exact Or.inl h
              · exact Or.inr ⟨w, List.mem_cons_of_mem _ hw, hcw⟩

/-- A `|`-join of non-empty strings is non-empty when the list is. -/
theorem joinBar_ne_empty :
    ∀ (l : List String), l ≠ [] → (∀ s ∈ l, s ≠ "") → joinBar l ≠ "" := by
  intro l
  cases l with
  | nil => intro h; exact absurd rfl h
  | cons s rest =>
      cases rest with
      | nil =>
          intro _ hne
          exact hne s (List.mem_singleton_self _)
      | cons t ts =>
          intro _ hne hcontra
          have hdata : s.data ++ '|' :: (joinBar (t :: ts)).data = [] := by
            have := congrArg String.data hcontra
            rw [show (joinBar (s :: t :: ts)).data =
                s.data ++ '|' :: (joinBar (t :: ts)).data from by
              show (s ++ "|" ++ joinBar (t :: ts)).data = _
              rw [str_data_append, str_data_append]
              simp] at this
            exact this
          simp at hdata

/-- Splitting at an occurrence of a character absent from both prefixes. -/
theorem append_sep_inj (c : Char) :
    ∀ (a₁ a₂ r₁ r₂ : List Char), c ∉ a₁ → c ∉ a₂ →
      a₁ ++ c :: r₁ = a₂ ++ c :: r₂ → a₁ = a₂ ∧ r₁ = r₂ := by
  intro a₁
  induction a₁ with
  | nil =>
      intro a₂ r₁ r₂ _ h2 heq
      cases a₂ with
      | nil => simpa using heq
      | cons y ys =>
          exfalso
          have hy : c = y := by
            have := congrArg (fun l => l.head?) heq
            simpa using this
          exact h2 (hy ▸ List.mem_cons_self _ _)
  | cons x xs ih =>
      intro a₂ r₁ r₂ h1 h2 heq
      cases a₂ with
      | nil =>
          exfalso
          have hx : x = c := by
            have := congrArg (fun l => l.head?) heq
            simpa using this
          exact h1 (hx ▸ List.mem_cons_self _ _)
      | cons y ys =>
          rw [List.cons_append, List.cons_append] at heq
          obtain ⟨hxy, htail⟩ := List.cons.inj heq
          obtain ⟨ha, hr⟩ := ih ys r₁ r₂
            (fun hmem => h1 (List.mem_cons_of_mem _ hmem))
            (fun hmem => h2 (List.mem_cons_of_mem _ hmem)) htail
          exact ⟨by rw [hxy, ha], hr⟩

/-- `Array.prototype.join('|')` is injective on lists of non-empty,
bar-free strings. -/
theorem joinBar_inj :
    ∀ (l₁ l₂ : List String),
      (∀ s ∈ l₁, s ≠ "" ∧ '|' ∉ s.data) → (∀ s ∈ l₂, s ≠ "" ∧ '|' ∉ s.data) →
      joinBar l₁ = joinBar l₂ → l₁ = l₂ := by
  intro l₁
  induction l₁ with
  | nil =>
      intro l₂ _ h2 heq
      cases l₂ with
      | nil => rfl
      | cons t ts =>
          exfalso
          exact joinBar_ne_empty (t :: ts) (by simp) (fun s hs => (h2 s hs).1) heq.symm
  | cons s rest ih =>
      intro l₂ h1 h2 heq
      cases l₂ with
      | nil =>
          exfalso
          exact joinBar_ne_empty (s :: rest) (by simp) (fun x hx => (h1 x hx).1) heq
      | cons t ts =>
          cases rest with
          | nil =>
              cases ts with
              | nil => rw [show joinBar [s] = s from rfl, show joinBar [t] = t from rfl] at heq
                       rw [heq]
              | cons u us =>
                  exfalso
                  have hdata : s.data = t.data ++ '|' :: (joinBar (u :: us)).data := by
                    have := congrArg String.data heq
                    rw [show (joinBar (t :: u :: us)).data =
                        t.data ++ '|' :: (joinBar (u :: us)).data from by
                      show (t ++ "|" ++ joinBar (u :: us)).data = _
                      rw [str_data_append, str_data_append]
                      simp] at this
                    exact this
                  have : '|' ∈ s.data := by
                    rw [hdata]
                    exact List.mem_append_right _ (List.mem_cons_self _ _)
                  exact (h1 s (List.mem_singleton_self _)).2 this
          | cons u us =>
              cases ts with
              | nil =>
                  exfalso
                  have hdata : t.data = s.data ++ '|' :: (joinBar (u :: us)).data := by
                    have := congrArg String.data heq
                    rw [show (joinBar (s :: u :: us)).data =
                        s.data ++ '|' :: (joinBar (u :: us)).data from by
                      show (s ++ "|" ++ joinBar (u :: us)).data = _
                      rw [str_data_append, str_data_append]
                      simp] at this
                    exact this.symm
                  have : '|' ∈ t.data := by
                    rw [hdata]
                    exact List.mem_append_right _ (List.mem_cons_self _ _)
                  exact (h2 t (List.mem_cons_self _ _)).2 this
              | cons v vs =>
                  have hdata : s.data ++ '|' :: (joinBar (u :: us)).data =
                      t.data ++ '|' :: (joinBar (v :: vs)).data := by
                    have := congrArg String.data heq
                    rw [show (joinBar (s :: u :: us)).data =
                        s.data ++ '|' :: (joinBar (u :: us)).data from by
                      show (s ++ "|" ++ joinBar (u :: us)).data = _
                      rw [str_data_append, str_data_append]
                      simp,
                      show (joinBar (t :: v :: vs)).data =
                        t.data ++ '|' :: (joinBar (v :: vs)).data from by
                      show (t ++ "|" ++ joinBar (v :: vs)).data = _
                      rw [str_data_append, str_data_append]
                      simp] at this
                    exact this
                  obtain ⟨hst, htails⟩ := append_sep_inj '|' s.data t.data _ _
                    (h1 s (List.mem_cons_self _ _)).2 (h2 t (List.mem_cons_self _ _)).2 hdata
                  have hrest := ih (v :: vs)
                    (fun x hx => h1 x (List.mem_cons_of_mem _ hx))
                    (fun x hx => h2 x (List.mem_cons_of_mem _ hx))
                    (str_data_inj htails)
                  rw [str_data_inj hst, hrest]

theorem sortStrings_perm (l : List String) : List.Perm (sortStrings l) l :=
  List.perm_insertionSort _ _

theorem sortStrings_sorted (l : List String) : List.Sorted (· ≤ ·) (sortStrings l) :=
  List.sorted_insertionSort _ _

/-- Node-signature strings of a clean graph are non-empty and
separator-free. -/
theorem nodeSig_els {g : Graph} (hc : CleanGraph g) :
    ∀ s ∈ nodeSigList g, s ≠ "" ∧ ∀ c ∈ s.data, isSepChar c = false := by
  intro s hs
  rcases List.mem_map.mp hs with ⟨nd, hnd, rfl⟩
  obtain ⟨hne, hfree⟩ := hc.1 nd hnd
  exact ⟨strip_ne_empty hne, strip_sepFree hfree⟩

/-- Edge-signature strings of a clean graph are non-empty and contain only
`-`, `>` and separator-free characters. -/
theorem edgeSig_els {g : Graph} (hc : CleanGraph g) :
    ∀ s ∈ edgeSigList g,
      s ≠ "" ∧ ∀ c ∈ s.data, c = '-' ∨ c = '>' ∨ isSepChar c = false := by
  intro s hs
  rcases List.mem_map.mp hs with ⟨ed, hed, rfl⟩
  obtain ⟨⟨hne1, hfree1⟩, hne2, hfree2⟩ := hc.2 ed hed
  have hdata : (stripInstanceIndex ed.fromId ++ "->" ++ stripInstanceIndex ed.toId).data =
      (stripInstanceIndex ed.fromId).data ++ '-' :: '>' :: (stripInstanceIndex ed.toId).data := by
    rw [str_data_append, str_data_append]
    simp
  constructor
  · intro hcontra
    have := congrArg String.data hcontra
    rw [hdata] at this
    simp at this
  · intro c hcm
    rw [hdata] at hcm
    rcases List.mem_append.mp hcm with h | h
    · exact Or.inr (Or.inr (strip_sepFree hfree1 _ h))
    · rcases List.mem_cons.mp h with rfl | h
      · exact Or.inl rfl
      rcases List.mem_cons.mp h with rfl | h
      · exact Or.inr (Or.inl rfl)
      · exact Or.inr (Or.inr (strip_sepFree hfree2 _ h))

/-- **C9** counterexample: the two single-node graphs `A[0]` and `A[1]`
differ in node membership, yet `buildStructureSignature` maps both to the
same signature `A[*]::` (instance indices are normalized away), refuting
the claim that membership differences always change the signature. -/
theorem c9_counterexample :
    buildStructureSignature c9G0 = buildStructureSignature c9G1 ∧
    buildStructureSignature c9G0 = "A[*]::" ∧
    c9G0.nodes.map GraphNode.id = ["A[0]"] ∧
    c9G1.nodes.map GraphNode.id = ["A[1]"] :=
  ⟨rfl, rfl, rfl, rfl⟩

/-- **C9** (amended): (a) two graphs that agree on their index-stripped
node ids and index-stripped edge endpoint pairs produce identical
signatures (in particular, graphs differing only in numeric instance
indices do); (b) for graphs whose ids are non-empty and free of the
signature's separator characters, equal signatures force the multisets of
index-stripped node ids and of index-stripped edge strings to coincide —
so such graphs differing in stripped node or edge membership produce
different signatures. -/
theorem c9_structure_signature :
    (∀ g₁ g₂ : Graph,
      g₁.nodes.map (fun nd => stripInstanceIndex nd.id) =
        g₂.nodes.map (fun nd => stripInstanceIndex nd.id) →
      g₁.edges.map (fun e => (stripInstanceIndex e.fromId, stripInstanceIndex e.toId)) =
        g₂.edges.map (fun e => (stripInstanceIndex e.fromId, stripInstanceIndex e.toId)) →
      buildStructureSignature g₁ = buildStructureSignature g₂) ∧
    (∀ g₁ g₂ : Graph, CleanGraph g₁ → CleanGraph g₂ →
      buildStructureSignature g₁ = buildStructureSignature g₂ →
      List.Perm (nodeSigList g₁) (nodeSigList g₂) ∧
      List.Perm (edgeSigList g₁) (edgeSigList g₂)) := by
  constructor
  · intro g₁ g₂ hn he
    have hmap : ∀ g : Graph, edgeSigList g =
        (g.edges.map (fun e => (stripInstanceIndex e.fromId, stripInstanceIndex e.toId))).map
          (fun pr => pr.1 ++ "->" ++ pr.2) := by
      intro g
      rw [List.map_map]
      rfl
    have he' : edgeSigList g₁ = edgeSigList g₂ := by
      rw [hmap g₁, hmap g₂, he]
    have hn' : nodeSigList g₁ = nodeSigList g₂ := hn
    unfold buildStructureSignature
    rw [hn', he']
  · intro g₁ g₂ hc₁ hc₂ hsig
    have hdata : ∀ g : Graph, (buildStructureSignature g).data =
        (joinBar (sortStrings (nodeSigList g))).data ++
          ':' :: ':' :: (joinBar (sortStrings (edgeSigList g))).data := by
      intro g
      unfold buildStructureSignature
      rw [str_data_append, str_data_append]
      simp
    have heq := congrArg String.data hsig
    rw [hdata g₁, hdata g₂] at heq
    have hfreeN : ∀ g : Graph, CleanGraph g →
        ':' ∉ (joinBar (sortStrings (nodeSigList g))).data := by
      intro g hc hmem
      rcases joinBar_data_mem _ _ hmem with h | ⟨s, hs, hcs⟩
      · exact absurd h (by decide)
      · have hs' : s ∈ nodeSigList g := (sortStrings_perm _).mem_iff.mp hs
        exact absurd ((nodeSig_els hc s hs').2 ':' hcs) (by decide)
    obtain ⟨hnodesD, htail⟩ :=
      append_sep_inj ':' _ _ _ _ (hfreeN g₁ hc₁) (hfreeN g₂ hc₂) heq
    have hedgesD : (joinBar (sortStrings (edgeSigList g₁))).data =
        (joinBar (sortStrings (edgeSigList g₂))).data := by
      simpa using htail
    have hnodeProps : ∀ g : Graph, CleanGraph g →
        ∀ s ∈ sortStrings (nodeSigList g), s ≠ "" ∧ '|' ∉ s.data := by
      intro g hc s hs
      have hs' : s ∈ nodeSigList g := (sortStrings_perm _).mem_iff.mp hs
      obtain ⟨hne, hfree⟩ := nodeSig_els hc s hs'
      refine ⟨hne, fun hmem => ?_⟩
      exact absurd (hfree _ hmem) (by decide)
    have hedgeProps : ∀ g : Graph, CleanGraph g →
        ∀ s ∈ sortStrings (edgeSigList g), s ≠ "" ∧ '|' ∉ s.data := by
      intro g hc s hs
      have hs' : s ∈ edgeSigList g := (sortStrings_perm _).mem_iff.mp hs
      obtain ⟨hne, hfree⟩ := edgeSig_els hc s hs'
      refine ⟨hne, fun hmem => ?_⟩
      rcases hfree _ hmem with h | h | h
      · exact absurd h (by decide)
      · exact absurd h (by decide)
      · exact absurd h (by decide)
    have hsortN : sortStrings (nodeSigList g₁) = sortStrings (nodeSigList g₂) :=
      joinBar_inj _ _ (hnodeProps g₁ hc₁) (hnodeProps g₂ hc₂) (str_data_inj hnodesD)
    have hsortE : sortStrings (edgeSigList g₁) = sortStrings (edgeSigList g₂) :=
      joinBar_inj _ _ (hedgeProps g₁ hc₁) (hedgeProps g₂ hc₂) (str_data_inj hedgesD)
    constructor
    · have h2 := sortStrings_perm (nodeSigList g₂)
      rw [← hsortN] at h2
      exact (sortStrings_perm (nodeSigList g₁)).symm.trans h2
    · have h2 := sortStrings_perm (edgeSigList g₂)
      rw [← hsortE] at h2
      exact (sortStrings_perm (edgeSigList g₁)).symm.trans h2

/-- Witness for `c9_structure_signature` at the concrete pair
`c9G0`, `c9G1`. -/
theorem c9_witness :
    buildStructureSignature c9G0 = buildStructureSignature c9G1 ∧
    List.Perm (nodeSigList c9G0) (nodeSigList c9G1) ∧
    List.Perm (edgeSigList c9G0) (edgeSigList c9G1) :=
  ⟨c9_structure_signature.1 c9G0 c9G1 rfl rfl,
   (c9_structure_signature.2 c9G0 c9G1 (by unfold CleanGraph CleanId; decide)
     (by unfold CleanGraph CleanId; decide) rfl).1,
   (c9_structure_signature.2 c9G0 c9G1 (by unfold CleanGraph CleanId; decide)
     (by unfold CleanGraph CleanId; decide) rfl).2⟩

/-! ## Readiness-detector lemmas -/

theorem emitFiberGraphEv_isGraph (reg : RootRegistry) (rid : Nat) (root : FiberRootObj) :
    isGraphEv (emitFiberGraphEv reg rid root).2 = true := rfl

theorem innerFold_graphs (rid : Nat) (roots : List FiberRootObj) :
    ∀ (acc : RootRegistry × List Ev),
      (∀ ev ∈ acc.2, isGraphEv ev = true) →
      ∀ ev ∈ (roots.foldl
          (fun acc2 root =>
            let r2 := emitFiberGraphEv acc2.1 rid root
            (r2.1, acc2.2 ++ [r2.2])) acc).2,
        isGraphEv ev = true := by
  induction roots with
  | nil => intro acc hacc; simpa using hacc
  | cons root roots ih =>
      intro acc hacc
      rw [List.foldl_cons]
      apply ih
      intro ev hev
      rcases List.mem_append.mp hev with hev | hev
      · exact hacc ev hev
      · rw [List.mem_singleton.mp hev]
        exact emitFiberGraphEv_isGraph _ _ _

/-- Every event emitted by `emitAllRoots` is a `FIBER_GRAPH` event. -/
theorem emitAllRoots_graphs (reg : RootRegistry) (renderers : List (Nat × List FiberRootObj)) :
    ∀ ev ∈ (emitAllRoots reg renderers).2, isGraphEv ev = true := by
  unfold emitAllRoots
  have main : ∀ (rs : List (Nat × List FiberRootObj)) (acc : RootRegistry × List Ev),
      (∀ ev ∈ acc.2, isGraphEv ev = true) →
      ∀ ev ∈ (rs.foldl
          (fun acc r =>
            r.2.foldl
              (fun acc2 root =>
                let r2 := emitFiberGraphEv acc2.1 r.1 root
                (r2.1, acc2.2 ++ [r2.2])) acc) acc).2,
        isGraphEv ev = true := by
    intro rs
    induction rs with
    | nil => intro acc hacc; simpa using hacc
    | cons r rs ih =>
        intro acc hacc
        rw [List.foldl_cons]
        exact ih _ (innerFold_graphs r.1 r.2 acc hacc)
  exact main renderers (reg, []) (by simp)

/-- If no renderer is seen through the whole polling window, the loop ends
with exactly one `NO_REACT` status and nothing else. -/
theorem pollFrom_no_react (hasR : Nat → Bool) (renderers : List (Nat × List FiberRootObj))
    (reg : RootRegistry)
    (h : ∀ j, j ≤ TIMEOUT_MS / POLL_MS → hasR j = false) :
    ∀ (n k : Nat), (TIMEOUT_MS / POLL_MS + 1) - k ≤ n → k ≤ TIMEOUT_MS / POLL_MS →
      pollFrom hasR renderers reg k = (reg, [.status .NO_REACT]) := by
  intro n
  induction n with
  | zero =>
      intro k hn hk
      exfalso
      simp only [TIMEOUT_MS, POLL_MS] at hn hk
      norm_num at hn hk
      omega
  | succ n ih =>
      intro k hn hk
      rw [pollFrom]
      rw [if_neg (by simp [h k hk])]
      by_cases htime : (k + 1) * POLL_MS > TIMEOUT_MS
      · rw [if_pos htime]
      · rw [if_neg htime]
        apply ih
        · simp only [TIMEOUT_MS, POLL_MS] at *
          omega
        · simp only [TIMEOUT_MS, POLL_MS] at *
          norm_num at htime ⊢
          omega

/-- If the first tick at which a renderer is seen falls inside the polling
window, the loop ends by emitting all root graphs and then `REACT_READY`. -/
theorem pollFrom_ready (hasR : Nat → Bool) (renderers : List (Nat × List FiberRootObj))
    (reg : RootRegistry) :
    ∀ (m k : Nat),
      (∀ j, j < m → hasR (k + j) = false ∧ (k + j + 1) * POLL_MS ≤ TIMEOUT_MS) →
      hasR (k + m) = true →
      pollFrom hasR renderers reg k =
        ((emitAllRoots reg renderers).1,
         (emitAllRoots reg renderers).2 ++ [.status .REACT_READY]) := by
  intro m
  induction m with
  | zero =>
      intro k _ hk
      rw [pollFrom]
      rw [if_pos (by simpa using hk)]
  | succ m ih =>
      intro k hpre hk
      have h0 := hpre 0 (Nat.succ_pos m)
      rw [pollFrom]
      rw [if_neg (by simp [show hasR k = false from by simpa using h0.1])]
      rw [if_neg (by
        have := h0.2
        simp only [Nat.add_zero] at this
        omega)]
      apply ih (k + 1)
      · intro j hj
        have hs := hpre (j + 1) (by omega)
        constructor
        · have := hs.1
          rwa [show k + (j + 1) = k + 1 + j by omega] at this
        · have := hs.2
          rwa [show k + (j + 1) + 1 = k + 1 + j + 1 by omega] at this
      · rwa [show k + (m + 1) = k + 1 + m by omega] at hk

/-- **C7**: per attach the detector emits at most one status and the three
statuses are mutually exclusive: with no global hook it emits exactly
`NO_HOOK`, without polling and without any graph; with a hook but no
renderer at any tick of the 3000 ms window (polled at 50 ms intervals) it
emits exactly `NO_REACT` and no graph; when a renderer is first seen at a
tick inside the window it emits the current root graphs followed by
exactly one `REACT_READY`; and every event `emitAllRoots` contributes is a
graph event (so each outcome carries exactly one status). -/
theorem c7_readiness_protocol (hookPresent : Bool) (hasR : Nat → Bool)
    (renderers : List (Nat × List FiberRootObj)) (reg : RootRegistry) :
    (hookPresent = false →
      (runDetector hookPresent hasR renderers reg).2 = [.status .NO_HOOK]) ∧
    (hookPresent = true → (∀ j, j ≤ TIMEOUT_MS / POLL_MS → hasR j = false) →
      (runDetector hookPresent hasR renderers reg).2 = [.status .NO_REACT]) ∧
    (∀ m, hookPresent = true → m ≤ TIMEOUT_MS / POLL_MS →
      (∀ j, j < m → hasR j = false) → hasR m = true →
      (runDetector hookPresent hasR renderers reg).2 =
        (emitAllRoots reg renderers).2 ++ [.status .REACT_READY]) ∧
    (∀ ev ∈ (emitAllRoots reg renderers).2, isGraphEv ev = true) := by
  refine ⟨?_, ?_, ?_, emitAllRoots_graphs reg renderers⟩
  · intro hf
    subst hf
    rfl
  · intro ht hnone
    subst ht
    unfold runDetector
    rw [if_neg (by simp)]
    rw [pollFrom_no_react hasR renderers reg hnone (TIMEOUT_MS / POLL_MS + 1) 0
      (by simp) (Nat.zero_le _)]
  · intro m ht hm hpre hsee
    subst ht
    unfold runDetector
    rw [if_neg (by simp)]
    rw [pollFrom_ready hasR renderers reg m 0
      (by
        intro j hj
        refine ⟨by simpa using hpre j hj, ?_⟩
        simp only [TIMEOUT_MS, POLL_MS] at *
        omega)
      (by simpa using hsee)]

/-- Witness for `c7_readiness_protocol`: the three outcomes at concrete
environments (hook absent; hook present but no renderer ever; renderer
present from the first tick). -/
theorem c7_witness :
    (runDetector false (fun _ => false) [] ⟨[], 1⟩).2 = [.status .NO_HOOK] ∧
    (runDetector true (fun _ => false) [] ⟨[], 1⟩).2 = [.status .NO_REACT] ∧
    (runDetector true (fun _ => true) [] ⟨[], 1⟩).2 =
      (emitAllRoots ⟨[], 1⟩ []).2 ++ [.status .REACT_READY] :=
  ⟨(c7_readiness_protocol false (fun _ => false) [] ⟨[], 1⟩).1 rfl,
   (c7_readiness_protocol true (fun _ => false) [] ⟨[], 1⟩).2.1 rfl (fun _ _ => rfl),
   (c7_readiness_protocol true (fun _ => true) [] ⟨[], 1⟩).2.2.1 0 rfl (Nat.zero_le _)
     (fun j hj => absurd hj (Nat.not_lt_zero j)) rfl⟩

/-! ## Commit-observer theorems -/

/-- **C8**: for every commit handled while patched, the event sequence is
`FIBER_GRAPH` first (exactly one), then `FIBER_UPDATE` exactly when the
update list is non-empty (carrying only the ids), then always exactly one
`FIBER_META` carrying the full update batch together with the elapsed-time
measurement. -/
theorem c8_commit_emission_order (st : HookState) (op : Bool) (tv rid : Nat)
    (root : FiberRootObj) (now : Int) :
    (onCommitFiberRoot st op tv rid root now).2[0]? =
      some (emitFiberGraphEv st.reg rid root).2 ∧
    isGraphEv (emitFiberGraphEv st.reg rid root).2 = true ∧
    (onCommitFiberRoot st op tv rid root now).2[1]? =
      some (if buildFiberUpdates root.current MAX_NODES = [] then
        Ev.fiberMeta (match st.lastCommitTs with | none => 0 | some t => now - t)
          (buildFiberUpdates root.current MAX_NODES)
      else Ev.fiberUpdate ((buildFiberUpdates root.current MAX_NODES).map UpdateRec.id)) ∧
    (onCommitFiberRoot st op tv rid root
        now).2[if buildFiberUpdates root.current MAX_NODES = [] then 1 else 2]? =
      some (Ev.fiberMeta (match st.lastCommitTs with | none => 0 | some t => now - t)
        (buildFiberUpdates root.current MAX_NODES)) ∧
    (onCommitFiberRoot st op tv rid root now).2.countP isUpdateEv =
      (if buildFiberUpdates root.current MAX_NODES = [] then 0 else 1) ∧
    (onCommitFiberRoot st op tv rid root now).2.countP isMetaEv = 1 ∧
    (onCommitFiberRoot st op tv rid root now).2.countP isGraphEv = 1 := by
  by_cases hup : buildFiberUpdates root.current MAX_NODES = [] <;>
    by_cases hop : op <;>
      simp [onCommitFiberRoot, emitFiberGraphEv, hup, hop, isGraphEv, isUpdateEv, isMetaEv,
        List.countP_cons, List.countP_nil]

/-- **C6** counterexample: the patched handler contains no exception
guard, so a throwing send (here the `FIBER_GRAPH` delivery, send 0) aborts
the invocation even though a previous handler was installed
(`originalPresent = true`): the run ends in `.error` — the exception
propagates to the caller — with no events delivered and in particular no
`callOriginal` delegation, refuting both the unconditional-invocation and
the never-raises parts of the claim. -/
theorem c6_counterexample :
    onCommitFiberRootE (some 0) { reg := ⟨[], 1⟩, lastCommitTs := none } true 7 1 c8Root 5 =
      .error [] := by
  rfl

/-- **C6** (amended): when the observer's own deliveries all succeed, the
failure-model handler coincides with the total handler, and the total
handler's event sequence delegates to the previously installed handler —
with the original `this` and arguments — exactly when one was installed,
as its final action; a failing delivery instead aborts the handler before
the delegation and the exception propagates. -/
theorem c6_commit_chain (st : HookState) (op : Bool) (tv rid : Nat)
    (root : FiberRootObj) (now : Int) :
    onCommitFiberRootE none st op tv rid root now =
      .ok (onCommitFiberRoot st op tv rid root now) ∧
    (onCommitFiberRoot st op tv rid root now).2.countP isCallEv = (if op then 1 else 0) ∧
    (onCommitFiberRoot st op tv rid root now).2.getLast? =
      some (if op then Ev.callOriginal tv rid root.handle
            else Ev.fiberMeta
              (match st.lastCommitTs with | none => 0 | some t => now - t)
              (buildFiberUpdates root.current MAX_NODES)) := by
  by_cases hup : buildFiberUpdates root.current MAX_NODES = [] <;>
    by_cases hop : op <;>
      simp [onCommitFiberRoot, onCommitFiberRootE, emitFiberGraphEv, hup, hop, isCallEv,
        List.countP_cons, List.countP_nil, List.getLast?]

end ReactDetective
